import Mathlib

/-!
Verification of the scan-and-reconstruct highlighting engine of
`pp_highlighting/pp_highlighter.py`.

The embedding models text as `List Char`.  The pyparsing grammar is external
to the repository; it is modelled abstractly as, per input position, a
pre-parse (whitespace-skip) step that either returns an adjusted position or
raises, and a match attempt that either succeeds with an end position or
raises.  Python exceptions are modelled as `PErr` values; the distinction
`isinstance(err, pp.ParseBaseException)` made by `_scan_string` is carried by
the `isParseBase` flag.  Side effects of parse actions on `self._fragments`
(a dict keyed by match start offset, last write wins) are modelled by the
captures carried by each match attempt, inserted into an association list
with distinct keys.  The two `while` loops of the source (`_scan_string` and
`_highlight`) are modelled with an explicit fuel argument; running out of
fuel is reported as a distinct outcome, so a result `finished`/`ok` is only
produced when the Python loop actually reaches its exit condition.
-/

namespace PPH

abbrev Str := List Char

/-- A fragment `(style, text)`, as stored in `self._fragments` values and
produced by `_highlight`.  The default style `''` is the empty list. -/
abbrev Frag := Str × Str

/-- The `self._fragments` dict: an association list `start offset ↦ fragment`
whose keys are kept distinct by `fragInsert`. -/
abbrev FragMap := List (Nat × Frag)

/-- Python slice `s[a:b]` (for natural `a`, `b`): clamps at the ends and is
empty when `a ≥ b`. -/
def slice (s : Str) (a b : Nat) : Str := (s.drop a).take (b - a)

/-- `self._fragments[k] = v`: overwrite the entry if the key is present,
otherwise append it (dict insertion, last write wins). -/
def fragInsert (m : FragMap) (k : Nat) (v : Frag) : FragMap :=
  if m.any (fun p => p.1 == k) then
    m.map (fun p => if p.1 == k then (k, v) else p)
  else m ++ [(k, v)]

/-- `self._fragments.get(k)`. -/
def fragGet (m : FragMap) (k : Nat) : Option Frag :=
  (m.find? (fun p => p.1 == k)).map (fun p => p.2)

/-- The keys of the dict. -/
def fragKeys (m : FragMap) : List Nat := m.map (fun p => p.1)

/-- `sorted(self._fragments)`: the keys in ascending order. -/
def sortKeys (m : FragMap) : List Nat := List.insertionSort (· ≤ ·) (fragKeys m)

/-- A Python exception as observed by `_scan_string`: whether it is a
`pyparsing.ParseBaseException`, its type name, and its message. -/
structure PErr where
  isParseBase : Bool
  name : Str
  msg : Str
deriving DecidableEq

/-- A capture recorded by a `styler` parse action: the action stores
`self._fragments[loc] = (style, s[loc:end_loc])`. -/
structure Capture where
  start : Nat
  stop : Nat
  style : Str
deriving DecidableEq

/-- Outcome of one top-level match attempt `self._parser._parse(s, preloc)`,
together with the captures its parse actions recorded before returning or
raising. -/
inductive Attempt where
  | success (nextloc : Nat) (captures : List Capture)
  | failure (err : PErr) (captures : List Capture)
deriving DecidableEq

/-- The abstract grammar behaviour over a fixed input string: `preParse`
models `self._parser.preParse(s, loc)` and `parse` models
`self._parser._parse(s, preloc, callPreParse=False)`, both as functions of
the position. -/
structure Grammar where
  preParse : Nat → Except PErr Nat
  parse : Nat → Attempt

/-- Record a list of captures into the fragments dict, in firing order:
each capture stores `(style, s[start:stop])` at key `start`. -/
def applyCaptures (s : Str) (m : FragMap) (cs : List Capture) : FragMap :=
  cs.foldl (fun acc c => fragInsert acc c.start (c.style, slice s c.start c.stop)) m

/-- The `warnings.warn` message built by `_scan_string`:
`'Exception during parsing: {}: {}'.format(type(err).__name__, err)`. -/
def warnMsg (e : PErr) : Str :=
  ("Exception during parsing: ").toList ++ e.name ++ (": ").toList ++ e.msg

/-- The mutable state of the `_scan_string` loop: the cursor `loc`, the
variable `preloc` (None before the first successful pre-parse), the fragments
dict, and the warnings emitted so far. -/
structure ScanSt where
  loc : Nat
  preloc : Option Nat
  frags : FragMap
  warns : List Str
deriving DecidableEq

inductive StepRes where
  | next (st : ScanSt)
  | raised (e : PErr)
deriving DecidableEq

/-- One iteration of the `while loc <= len(s)` loop of `_scan_string`:

* `preloc = self._parser.preParse(s, loc)`; if this raises and `preloc` is
  still `None` the exception propagates, otherwise the handler runs with the
  stale `preloc` of an earlier iteration;
* `nextloc, _ = self._parser._parse(s, preloc, callPreParse=False)`; on an
  exception the handler sets `loc = preloc + 1` and warns unless the
  exception is a `ParseBaseException`; on success
  `loc = nextloc if nextloc > loc else preloc + 1`. -/
def scanStep (g : Grammar) (s : Str) (st : ScanSt) : StepRes :=
  match g.preParse st.loc with
  | Except.error e =>
    match st.preloc with
    | none => StepRes.raised e
    | some p =>
      StepRes.next { loc := p + 1
                     preloc := some p
                     frags := st.frags
                     warns := if e.isParseBase then st.warns
                              else st.warns ++ [warnMsg e] }
  | Except.ok p =>
    match g.parse p with
    | Attempt.success nextloc cs =>
      StepRes.next { loc := if st.loc < nextloc then nextloc else p + 1
                     preloc := some p
                     frags := applyCaptures s st.frags cs
                     warns := st.warns }
    | Attempt.failure err cs =>
      StepRes.next { loc := p + 1
                     preloc := some p
                     frags := applyCaptures s st.frags cs
                     warns := if err.isParseBase then st.warns
                              else st.warns ++ [warnMsg err] }

inductive ScanOut where
  | finished (m : FragMap) (warns : List Str)
  | raised (e : PErr)
  | fuelOut (st : ScanSt)
deriving DecidableEq

/-- The `_scan_string` loop with explicit fuel: iterate `scanStep` while
`loc <= len(s)`. -/
def scanLoop (g : Grammar) (s : Str) : Nat → ScanSt → ScanOut
  | 0, st =>
    if st.loc ≤ s.length then ScanOut.fuelOut st
    else ScanOut.finished st.frags st.warns
  | fuel + 1, st =>
    if st.loc ≤ s.length then
      match scanStep g s st with
      | StepRes.next st' => scanLoop g s fuel st'
      | StepRes.raised e => ScanOut.raised e
    else ScanOut.finished st.frags st.warns

/-- `_scan_string(s)` starting from `loc = 0`, `preloc = None` and an empty
fragments dict, with fuel `len(s) + 1` (enough iterations whenever the cursor
advances by at least one unit per iteration). -/
def scanString (g : Grammar) (s : Str) : ScanOut :=
  scanLoop g s (s.length + 1) { loc := 0, preloc := none, frags := [], warns := [] }

inductive ReconOut where
  | finished (frs : List Frag)
  | fuelOut
  | indexErr
deriving DecidableEq

/-- The reconstruction loop of `_highlight`, with explicit fuel:

    while loc < len(s):
        fragment = self._fragments.get(loc)
        if fragment:
            fragments.append(fragment); loc += len(fragment[1]); i += 1
        else:
            fragments.append((default_style, s[loc:locs[i]])); loc = locs[i]

`locs[i]` out of range is reported as `indexErr`.  The default style is the
non-Pygments one, `''`. -/
def reconLoop (s : Str) (m : FragMap) (locs : List Nat) :
    Nat → Nat → Nat → List Frag → ReconOut
  | 0, loc, _, acc =>
    if loc < s.length then ReconOut.fuelOut else ReconOut.finished acc
  | fuel + 1, loc, i, acc =>
    if loc < s.length then
      match fragGet m loc with
      | some fr => reconLoop s m locs fuel (loc + fr.2.length) (i + 1) (acc ++ [fr])
      | none =>
        match locs[i]? with
        | some l => reconLoop s m locs fuel l i (acc ++ [(([] : Str), slice s loc l)])
        | none => ReconOut.indexErr
    else ReconOut.finished acc

/-- The gathering phase of `_highlight`: `locs = sorted(self._fragments);
locs.append(len(s))`, then walk from `loc = 0`, `i = 0`. -/
def reconstruct (s : Str) (m : FragMap) : ReconOut :=
  reconLoop s m (sortKeys m ++ [s.length]) (s.length + 1) 0 0 []

inductive HOut where
  | ok (frs : List Frag)
  | raised (e : PErr)
  | scanFuel
  | reconFuel
  | indexErr
deriving DecidableEq

/-- `highlight(s)` for a `str` input in non-Pygments mode: reset the
fragments dict, run `_scan_string`, then gather with `_highlight`'s loop. -/
def highlightF (g : Grammar) (s : Str) : HOut :=
  match scanString g s with
  | ScanOut.raised e => HOut.raised e
  | ScanOut.fuelOut _ => HOut.scanFuel
  | ScanOut.finished m _ =>
    match reconstruct s m with
    | ReconOut.finished frs => HOut.ok frs
    | ReconOut.fuelOut => HOut.reconFuel
    | ReconOut.indexErr => HOut.indexErr

/-- Concatenation of the text components of a fragment list. -/
def concatTexts (frs : List Frag) : Str := frs.foldr (fun f r => f.2 ++ r) []

/-- Sum of the text lengths of a fragment list. -/
def sumLens (frs : List Frag) : Nat := (frs.map (fun f => f.2.length)).sum

/-- Start offset of fragment `i` when fragments are laid out consecutively:
the sum of the lengths of the preceding texts. -/
def fragStart (frs : List Frag) (i : Nat) : Nat := sumLens (frs.take i)

/-- End offset of fragment `i` under the same layout. -/
def fragEnd (frs : List Frag) (i : Nat) : Nat := sumLens (frs.take (i + 1))

/-! ### The HTML adapter (`highlight_html`, free-form styles) -/

/-- Whitespace as recognised by Python `str.split()` (ASCII subset). -/
def isPySpace (c : Char) : Bool :=
  c == ' ' || c == '\t' || c == '\n' || c == '\r' || c == '\x0b' || c == '\x0c'

/-- Helper for `pySplit`: accumulate the current word (reversed). -/
def pySplitAux : Str → Str → List Str
  | [], cur => if cur.isEmpty then [] else [cur.reverse]
  | c :: rest, cur =>
    if isPySpace c then
      if cur.isEmpty then pySplitAux rest [] else cur.reverse :: pySplitAux rest []
    else pySplitAux rest (c :: cur)

/-- Python `style.split()`: split on runs of whitespace, dropping empties. -/
def pySplit (s : Str) : List Str := pySplitAux s []

/-- `a.startswith(b)` written out (first argument is the candidate text,
second the pattern, mirroring `st.startswith('class:')`). -/
def startsWithCl : Str → Str → Bool
  | _, [] => true
  | [], _ :: _ => false
  | c :: cs, d :: ds => c == d && startsWithCl cs ds

/-- One character of Python `html.escape(s, quote=True)`. -/
def escChar (c : Char) : Str :=
  if c == '&' then ("&amp;").toList
  else if c == '<' then ("&lt;").toList
  else if c == '>' then ("&gt;").toList
  else if c == '"' then ("&quot;").toList
  else if c == '\'' then ("&#x27;").toList
  else [c]

/-- Python `html.escape` with default quoting. -/
def htmlEscape (s : Str) : Str := s.foldr (fun c r => escChar c ++ r) []

/-- Python `' '.join`. -/
def joinSpace : List Str → Str
  | [] => []
  | [x] => x
  | x :: xs => x ++ ' ' :: joinSpace xs

/-- The free-form (non-Pygments) class collection of `highlight_html`:

    for st in style.split():
        if st.startswith('class:'):
            classes.append(html.escape(st[6:])) -/
def collectClasses (style : Str) : List Str :=
  (pySplit style).foldl
    (fun cls st =>
      if startsWithCl st (("class:").toList) then cls ++ [htmlEscape (st.drop 6)]
      else cls)
    []

/-- The per-fragment rendering of `highlight_html` in free-form mode:

    if classes and classes[0]:
        tags.append('<span class="{}">{}</span>'.format(' '.join(classes), html.escape(text)))
    else:
        tags.append(html.escape(text)) -/
def fragmentHtml (fr : Frag) : Str :=
  let classes := collectClasses fr.1
  if !classes.isEmpty && !(classes.headD []).isEmpty then
    ("<span class=\"").toList ++ joinSpace classes ++ ("\">").toList
      ++ htmlEscape fr.2 ++ ("</span>").toList
  else htmlEscape fr.2

/-! ### The capture wrapper (`Locator` and `styler`) -/

/-- A pyparsing token as far as the wrapper is concerned: ordinary string
tokens, plus the integer location appended by `Locator.parseImpl`. -/
inductive Tok where
  | str (s : Str)
  | loc (n : Nat)
deriving DecidableEq

/-- A parse expression at the interface used by `Locator`: given the input,
a start position and the `doActions` flag, it fails or succeeds with an end
position and a token list. -/
abbrev Rule := Str → Nat → Bool → Except PErr (Nat × List Tok)

/-- `Locator.parseImpl`: run the wrapped expression, then append the end
location to its tokens and return the same end location. -/
def locatorParse (expr : Rule) : Rule := fun s l dA =>
  match expr s l dA with
  | Except.ok (e, toks) => Except.ok (e, toks ++ [Tok.loc e])
  | Except.error err => Except.error err

/-- `styler(style, expr)` = `Locator(expr).setParseAction(action)`: when
actions run, the action pops the appended end location back off the token
list (and, as a side effect not visible in the token stream, records the
matched span in the fragments dict). -/
def stylerRule (expr : Rule) : Rule := fun s l dA =>
  match locatorParse expr s l dA with
  | Except.ok (e, toks) =>
    if dA then Except.ok (e, toks.dropLast) else Except.ok (e, toks)
  | Except.error err => Except.error err

/-- `Except.isOk` written out for the rule result type. -/
def ruleOk (r : Except PErr (Nat × List Tok)) : Bool :=
  match r with
  | Except.ok _ => true
  | Except.error _ => false

/-! ### Concrete grammar behaviours used as witnesses and counterexamples -/

/-- An ordinary pyparsing no-match: a `ParseException`, which is a
`ParseBaseException`. -/
def noMatchE : PErr :=
  { isParseBase := true
    name := ("ParseException").toList
    msg := ("Expected").toList }

/-- A `ParseFatalException` (also a `ParseBaseException`) raised by the
pre-parse step. -/
def fatalE : PErr :=
  { isParseBase := true
    name := ("ParseFatalException").toList
    msg := ("fatal").toList }

/-- A non-pyparsing exception raised from user grammar code. -/
def valueE : PErr :=
  { isParseBase := false
    name := ("ValueError").toList
    msg := ("boom").toList }

/-- A grammar that never matches anywhere and whose pre-parse is the
identity. -/
def gNoMatch : Grammar :=
  { preParse := fun l => Except.ok l, parse := fun _ => Attempt.failure noMatchE [] }

/-- A grammar whose pre-parse succeeds at position 0 and raises a fatal
exception everywhere else; the match attempt at 0 is an ordinary no-match. -/
def gStaleSkip : Grammar :=
  { preParse := fun l => match l with
      | 0 => Except.ok 0
      | _ + 1 => Except.error fatalE,
    parse := fun _ => Attempt.failure noMatchE [] }

/-- A grammar whose pre-parse raises immediately at position 0. -/
def gFatalAt0 : Grammar :=
  { preParse := fun _ => Except.error fatalE,
    parse := fun _ => Attempt.failure noMatchE [] }

/-- A grammar producing two overlapping, non-nested captures from one
successful match at position 0 (an outer styled rule spanning `[0, 5)` with
an inner styled rule spanning `[2, 3)`). -/
def gOverlap : Grammar :=
  { preParse := fun l => Except.ok l,
    parse := fun l => match l with
      | 0 => Attempt.success 5
          [ { start := 2, stop := 3, style := ("class:inner").toList },
            { start := 0, stop := 5, style := ("class:outer").toList } ]
      | _ + 1 => Attempt.failure noMatchE [] }

/-- Like `gOverlap` with spans `[0, 4)` and `[1, 2)`. -/
def gOverlap2 : Grammar :=
  { preParse := fun l => Except.ok l,
    parse := fun l => match l with
      | 0 => Attempt.success 4
          [ { start := 1, stop := 2, style := ("class:inner").toList },
            { start := 0, stop := 4, style := ("class:outer").toList } ]
      | _ + 1 => Attempt.failure noMatchE [] }

/-- A grammar with a single zero-width styled match at position 0: the
styled sub-rule succeeds consuming no characters, recording an empty-text
capture. -/
def gZeroWidth : Grammar :=
  { preParse := fun l => Except.ok l,
    parse := fun l => match l with
      | 0 => Attempt.success 0 [ { start := 0, stop := 0, style := ("class:z").toList } ]
      | _ + 1 => Attempt.failure noMatchE [] }

/-- A grammar matching `[0, 1)` with one styled capture there. -/
def gOneCap : Grammar :=
  { preParse := fun l => Except.ok l,
    parse := fun l => match l with
      | 0 => Attempt.success 1 [ { start := 0, stop := 1, style := ("class:int").toList } ]
      | _ + 1 => Attempt.failure noMatchE [] }

/-- A grammar raising a `ValueError` from its match attempt at position 0,
recording one capture before raising; elsewhere an ordinary no-match. -/
def gFaulty : Grammar :=
  { preParse := fun l => Except.ok l,
    parse := fun l => match l with
      | 0 => Attempt.failure valueE [ { start := 0, stop := 1, style := ("class:x").toList } ]
      | _ + 1 => Attempt.failure noMatchE [] }

/-- A concrete rule used to witness the capture-wrapper transparency. -/
def ruleW : Rule := fun _ _ _ => Except.ok (2, [Tok.str (("ab").toList)])

/-- The fragment list produced by `highlight` for `gOverlap` on `"abcdefgh"`. -/
def fragsOverlap : List Frag :=
  [ ((("class:outer").toList : Str), (("abcde").toList : Str)),
    (([] : Str), ([] : Str)),
    ((("class:inner").toList : Str), (("c").toList : Str)),
    (([] : Str), (("defgh").toList : Str)) ]

/-- The fragment list produced by `highlight` for `gOverlap2` on `"abcdefgh"`. -/
def fragsOverlap2 : List Frag :=
  [ ((("class:outer").toList : Str), (("abcd").toList : Str)),
    (([] : Str), ([] : Str)),
    ((("class:inner").toList : Str), (("b").toList : Str)),
    (([] : Str), (("cdefgh").toList : Str)) ]

/-- The fragments dict recorded by the scan of `gZeroWidth` over `"a"`. -/
def mZeroWidth : FragMap := [(0, ((("class:z").toList : Str), ([] : Str)))]

/-! ### Basic facts about slices, concatenation and the fragments dict -/

theorem slice_append_drop (s : Str) (a b : Nat) (h1 : a ≤ b) :
    slice s a b ++ s.drop b = s.drop a := by
  have h3 : s.drop b = (s.drop a).drop (b - a) := by
    rw [List.drop_drop]
    congr 1
    omega
  unfold slice
  rw [h3, List.take_append_drop]

theorem slice_zero_len (s : Str) : slice s 0 s.length = s := by
  unfold slice
  simp

theorem concatTexts_cons (f : Frag) (l : List Frag) :
    concatTexts (f :: l) = f.2 ++ concatTexts l := rfl

theorem length_concatTexts (frs : List Frag) : (concatTexts frs).length = sumLens frs := by
  induction frs with
  | nil => rfl
  | cons f l ih =>
    simp only [concatTexts_cons, List.length_append, ih, sumLens, List.map_cons,
      List.sum_cons]

theorem fragGet_some_mem {m : FragMap} {k : Nat} {fr : Frag}
    (h : fragGet m k = some fr) : (k, fr) ∈ m := by
  unfold fragGet at h
  cases hf : m.find? (fun p => p.1 == k) with
  | none => rw [hf] at h; cases h
  | some pr =>
    rw [hf] at h
    have hmem := List.mem_of_find?_eq_some hf
    have hp := List.find?_some hf
    obtain ⟨a, b⟩ := pr
    simp only [beq_iff_eq] at hp
    simp only [Option.map_some'] at h
    cases h
    rw [hp] at hmem
    exact hmem

theorem fragGet_none_not_mem {m : FragMap} {k : Nat}
    (h : fragGet m k = none) : k ∉ fragKeys m := by
  intro hk
  unfold fragKeys at hk
  obtain ⟨p, hp, hpk⟩ := List.mem_map.mp hk
  unfold fragGet at h
  cases hm : m.find? (fun q => q.1 == k) with
  | some pr => rw [hm] at h; cases h
  | none =>
    have := List.find?_eq_none.mp hm p hp
    simp [hpk] at this

theorem fragInsert_nodup {m : FragMap} (h : (fragKeys m).Nodup) (k : Nat) (v : Frag) :
    (fragKeys (fragInsert m k v)).Nodup := by
  unfold fragInsert
  by_cases hc : m.any (fun p => p.1 == k)
  · rw [if_pos hc]
    have hkeys : fragKeys (m.map (fun p => if p.1 == k then (k, v) else p)) = fragKeys m := by
      unfold fragKeys
      rw [List.map_map]
      apply List.map_congr_left
      intro p _
      by_cases hpk : p.1 = k
      · simp [Function.comp, hpk]
      · simp [Function.comp, hpk]
    rw [hkeys]
    exact h
  · rw [if_neg hc]
    have hnk : k ∉ fragKeys m := by
      intro hk
      obtain ⟨p, hp, hpk⟩ := List.mem_map.mp hk
      exact hc (List.any_eq_true.mpr ⟨p, hp, by simp [hpk]⟩)
    unfold fragKeys
    rw [List.map_append]
    simp only [List.map_cons, List.map_nil]
    exact List.Nodup.append h (List.nodup_singleton k)
      (fun a ha hb => by simp at hb; exact hnk (hb ▸ ha))

theorem applyCaptures_nodup {s : Str} {m : FragMap} (h : (fragKeys m).Nodup)
    (cs : List Capture) : (fragKeys (applyCaptures s m cs)).Nodup := by
  induction cs generalizing m with
  | nil => exact h
  | cons c cs ih => exact ih (fragInsert_nodup h c.start (c.style, slice s c.start c.stop))

theorem scanStep_eq_preErr_none {g : Grammar} {s : Str} {st : ScanSt} {e : PErr}
    (hpre : g.preParse st.loc = Except.error e) (hploc : st.preloc = none) :
    scanStep g s st = StepRes.raised e := by
  simp [scanStep, hpre, hploc]

theorem scanStep_eq_preErr_some {g : Grammar} {s : Str} {st : ScanSt} {e : PErr} {p : Nat}
    (hpre : g.preParse st.loc = Except.error e) (hploc : st.preloc = some p) :
    scanStep g s st = StepRes.next
      { loc := p + 1
        preloc := some p
        frags := st.frags
        warns := if e.isParseBase then st.warns else st.warns ++ [warnMsg e] } := by
  simp [scanStep, hpre, hploc]

theorem scanStep_eq_success {g : Grammar} {s : Str} {st : ScanSt} {p nextloc : Nat}
    {cs : List Capture}
    (hpre : g.preParse st.loc = Except.ok p)
    (hparse : g.parse p = Attempt.success nextloc cs) :
    scanStep g s st = StepRes.next
      { loc := if st.loc < nextloc then nextloc else p + 1
        preloc := some p
        frags := applyCaptures s st.frags cs
        warns := st.warns } := by
  simp [scanStep, hpre, hparse]

theorem scanStep_eq_failure {g : Grammar} {s : Str} {st : ScanSt} {p : Nat} {err : PErr}
    {cs : List Capture}
    (hpre : g.preParse st.loc = Except.ok p)
    (hparse : g.parse p = Attempt.failure err cs) :
    scanStep g s st = StepRes.next
      { loc := p + 1
        preloc := some p
        frags := applyCaptures s st.frags cs
        warns := if err.isParseBase then st.warns else st.warns ++ [warnMsg err] } := by
  simp [scanStep, hpre, hparse]

theorem scanStep_nodup {g : Grammar} {s : Str} {st st' : ScanSt}
    (h : (fragKeys st.frags).Nodup)
    (hstep : scanStep g s st = StepRes.next st') : (fragKeys st'.frags).Nodup := by
  cases hpre : g.preParse st.loc with
  | error e =>
    cases hploc : st.preloc with
    | none =>
      rw [scanStep_eq_preErr_none hpre hploc] at hstep
      cases hstep
    | some p =>
      rw [scanStep_eq_preErr_some hpre hploc] at hstep
      cases hstep
      exact h
  | ok p =>
    cases hparse : g.parse p with
    | success nextloc cs =>
      rw [scanStep_eq_success hpre hparse] at hstep
      cases hstep
      exact applyCaptures_nodup h cs
    | failure err cs =>
      rw [scanStep_eq_failure hpre hparse] at hstep
      cases hstep
      exact applyCaptures_nodup h cs

theorem scanLoop_exit {g : Grammar} {s : Str} (fuel : Nat) (st : ScanSt)
    (h : ¬ st.loc ≤ s.length) :
    scanLoop g s fuel st = ScanOut.finished st.frags st.warns := by
  cases fuel <;> simp [scanLoop, h]

theorem scanLoop_succ_next {g : Grammar} {s : Str} {f : Nat} {st st' : ScanSt}
    (hle : st.loc ≤ s.length) (hstep : scanStep g s st = StepRes.next st') :
    scanLoop g s (f + 1) st = scanLoop g s f st' := by
  simp [scanLoop, hle, hstep]

theorem scanLoop_succ_raised {g : Grammar} {s : Str} {f : Nat} {st : ScanSt} {e : PErr}
    (hle : st.loc ≤ s.length) (hstep : scanStep g s st = StepRes.raised e) :
    scanLoop g s (f + 1) st = ScanOut.raised e := by
  simp [scanLoop, hle, hstep]

theorem scanLoop_nodup {g : Grammar} {s : Str} :
    ∀ (fuel : Nat) (st : ScanSt) (m : FragMap) (w : List Str),
      (fragKeys st.frags).Nodup →
      scanLoop g s fuel st = ScanOut.finished m w → (fragKeys m).Nodup := by
  intro fuel
  induction fuel with
  | zero =>
    intro st m w h hl
    unfold scanLoop at hl
    by_cases hle : st.loc ≤ s.length
    · rw [if_pos hle] at hl; cases hl
    · rw [if_neg hle] at hl; cases hl; exact h
  | succ f ih =>
    intro st m w h hl
    by_cases hle : st.loc ≤ s.length
    · cases hstep : scanStep g s st with
      | next st' =>
        rw [scanLoop_succ_next hle hstep] at hl
        exact ih st' m w (scanStep_nodup h hstep) hl
      | raised e =>
        rw [scanLoop_succ_raised hle hstep] at hl
        cases hl
    · rw [scanLoop_exit _ _ hle] at hl
      cases hl
      exact h

theorem scanString_nodup {g : Grammar} {s : Str} {m : FragMap} {w : List Str}
    (h : scanString g s = ScanOut.finished m w) : (fragKeys m).Nodup := by
  exact scanLoop_nodup _ _ m w (by simp [fragKeys]) h

theorem scanLoop_term {g : Grammar}
    (hpre : ∀ l, ∃ p, g.preParse l = Except.ok p ∧ l ≤ p) (s : Str) :
    ∀ (fuel : Nat) (st : ScanSt), s.length + 1 ≤ fuel + st.loc →
      ∃ m w, scanLoop g s fuel st = ScanOut.finished m w := by
  intro fuel
  induction fuel with
  | zero =>
    intro st h
    have hle : ¬ st.loc ≤ s.length := by omega
    exact ⟨st.frags, st.warns, scanLoop_exit 0 st hle⟩
  | succ f ih =>
    intro st h
    by_cases hle : st.loc ≤ s.length
    · obtain ⟨p, hp, hlp⟩ := hpre st.loc
      cases hparse : g.parse p with
      | success nextloc cs =>
        rw [scanLoop_succ_next hle (scanStep_eq_success hp hparse)]
        refine ih _ ?_
        simp only []
        by_cases hn : st.loc < nextloc
        · rw [if_pos hn]; omega
        · rw [if_neg hn]; omega
      | failure err cs =>
        rw [scanLoop_succ_next hle (scanStep_eq_failure hp hparse)]
        refine ih _ ?_
        simp only []
        omega
    · exact ⟨st.frags, st.warns, scanLoop_exit _ st hle⟩

theorem scanStep_progress {g : Grammar}
    (hpre : ∀ l, ∃ p, g.preParse l = Except.ok p ∧ l ≤ p) (s : Str) :
    ∀ st st', scanStep g s st = StepRes.next st' → st.loc < st'.loc := by
  intro st st' hstep
  obtain ⟨p, hp, hlp⟩ := hpre st.loc
  cases hparse : g.parse p with
  | success nextloc cs =>
    rw [scanStep_eq_success hp hparse] at hstep
    cases hstep
    simp only []
    by_cases hn : st.loc < nextloc
    · rw [if_pos hn]; omega
    · rw [if_neg hn]; omega
  | failure err cs =>
    rw [scanStep_eq_failure hp hparse] at hstep
    cases hstep
    simp only []
    omega

/-! ### The reconstruction loop -/

theorem reconLoop_done {g : Str} {m : FragMap} {locs : List Nat}
    (fuel loc i : Nat) (acc : List Frag) (h : ¬ loc < g.length) :
    reconLoop g m locs fuel loc i acc = ReconOut.finished acc := by
  cases fuel <;> simp [reconLoop, h]

theorem reconLoop_succ_some {s : Str} {m : FragMap} {locs : List Nat} {f loc i : Nat}
    {acc : List Frag} {fr : Frag} (hlt : loc < s.length) (hg : fragGet m loc = some fr) :
    reconLoop s m locs (f + 1) loc i acc
      = reconLoop s m locs f (loc + fr.2.length) (i + 1) (acc ++ [fr]) := by
  simp [reconLoop, hlt, hg]

theorem reconLoop_succ_none {s : Str} {m : FragMap} {locs : List Nat} {f loc i : Nat}
    {acc : List Frag} {l : Nat} (hlt : loc < s.length) (hg : fragGet m loc = none)
    (hl : locs[i]? = some l) :
    reconLoop s m locs (f + 1) loc i acc
      = reconLoop s m locs f l i (acc ++ [(([] : Str), slice s loc l)]) := by
  simp [reconLoop, hlt, hg, hl]

/-- Main invariant of `_highlight`'s gathering loop, for a fragments dict
whose entries are exact, non-empty, in-bounds and pairwise disjoint slices of
the input: the loop finishes and emits exactly the text from the current
position to the end of the input. -/
theorem reconLoop_spec (s : Str) (m : FragMap)
    (hwf : ∀ p ∈ m, p.2.2 = slice s p.1 (p.1 + p.2.2.length))
    (hpos : ∀ p ∈ m, 0 < p.2.2.length)
    (hbound : ∀ p ∈ m, p.1 + p.2.2.length ≤ s.length)
    (hdisj : ∀ p ∈ m, ∀ q ∈ m, p.1 ≠ q.1 → q.1 < p.1 ∨ p.1 + p.2.2.length ≤ q.1)
    (ks : List Nat) (hsort : List.Sorted (· ≤ ·) ks) (hnd : ks.Nodup)
    (hmem : ∀ k, k ∈ ks ↔ k ∈ fragKeys m) :
    ∀ (fuel loc i : Nat) (acc : List Frag),
      i ≤ ks.length →
      (∀ k, k ∈ ks → loc ≤ k → k ∈ ks.drop i) →
      (∀ k, k ∈ ks.drop i → loc ≤ k) →
      loc ≤ s.length →
      s.length ≤ fuel + loc →
      ∃ rest, reconLoop s m (ks ++ [s.length]) fuel loc i acc
          = ReconOut.finished (acc ++ rest) ∧ concatTexts rest = s.drop loc := by
  have hkub : ∀ k, k ∈ ks → k < s.length := by
    intro k hk
    obtain ⟨q, hq, hqk⟩ := List.mem_map.mp ((hmem k).mp hk)
    have h1 := hbound q hq
    have h2 := hpos q hq
    omega
  intro fuel
  induction fuel with
  | zero =>
    intro loc i acc _ _ _ hle hfuel
    have hloc : loc = s.length := by omega
    refine ⟨[], ?_, ?_⟩
    · rw [reconLoop_done _ _ _ _ (by omega)]
      simp
    · simp [concatTexts, hloc]
  | succ f ih =>
    intro loc i acc hi hc1 hc2 hle hfuel
    by_cases hlt : loc < s.length
    · cases hg : fragGet m loc with
      | some fr =>
        have hmm : (loc, fr) ∈ m := fragGet_some_mem hg
        have hkloc : loc ∈ ks := (hmem loc).mpr (List.mem_map.mpr ⟨(loc, fr), hmm, rfl⟩)
        have hpend : loc ∈ ks.drop i := hc1 loc hkloc (le_refl loc)
        cases hdrop : ks.drop i with
        | nil => rw [hdrop] at hpend; cases hpend
        | cons h0 tl =>
          rw [hdrop] at hpend
          have hsortp : List.Sorted (· ≤ ·) (h0 :: tl) := by
            rw [← hdrop]
            exact hsort.sublist (List.drop_sublist _ _)
          have hndp : (h0 :: tl).Nodup := by
            rw [← hdrop]
            exact hnd.sublist (List.drop_sublist _ _)
          have hh0loc : h0 = loc := by
            have h1 : loc ≤ h0 := hc2 h0 (by rw [hdrop]; exact List.mem_cons_self _ _)
            have h2 : h0 ≤ loc := by
              rcases List.mem_cons.mp hpend with he | htl
              · omega
              · exact List.rel_of_sorted_cons hsortp loc htl
            omega
          have htext : fr.2 = slice s loc (loc + fr.2.length) := hwf _ hmm
          have htpos : 0 < fr.2.length := hpos _ hmm
          have htb : loc + fr.2.length ≤ s.length := hbound _ hmm
          have htl : ∀ k, k ∈ tl → loc + fr.2.length ≤ k := by
            intro k hk
            have hkks : k ∈ ks :=
              (List.drop_sublist i ks).subset (by rw [hdrop]; exact List.mem_cons_of_mem _ hk)
            obtain ⟨q, hq, hqk⟩ := List.mem_map.mp ((hmem k).mp hkks)
            have hkne : k ≠ loc := by
              intro he
              have hnotin : h0 ∉ tl := (List.nodup_cons.mp hndp).1
              rw [hh0loc] at hnotin
              exact hnotin (he ▸ hk)
            have hne : loc ≠ q.1 := by
              rw [hqk]
              exact fun he => hkne he.symm
            have hklo : loc ≤ k := hc2 k (by rw [hdrop]; exact List.mem_cons_of_mem _ hk)
            have hd : q.1 < loc ∨ loc + fr.2.length ≤ q.1 := hdisj _ hmm q hq hne
            rcases hd with hlt' | hge
            · rw [hqk] at hlt'; omega
            · rw [hqk] at hge; exact hge
          have hdrop1 : ks.drop (i + 1) = tl := by
            rw [← List.tail_drop, hdrop]
            rfl
          have hi1 : i + 1 ≤ ks.length := by
            have hlen := congrArg List.length hdrop
            rw [List.length_drop] at hlen
            simp only [List.length_cons] at hlen
            omega
          have hrc1 : ∀ k, k ∈ ks → loc + fr.2.length ≤ k → k ∈ ks.drop (i + 1) := by
            intro k hk hke
            have hlek : loc ≤ k := by omega
            have hmemp := hc1 k hk hlek
            rw [hdrop] at hmemp
            rw [hdrop1]
            rcases List.mem_cons.mp hmemp with he | htl'
            · exfalso; omega
            · exact htl'
          have hrc2 : ∀ k, k ∈ ks.drop (i + 1) → loc + fr.2.length ≤ k := by
            intro k hk
            rw [hdrop1] at hk
            exact htl k hk
          obtain ⟨rest, hrl, hrcc⟩ :=
            ih (loc + fr.2.length) (i + 1) (acc ++ [fr]) hi1 hrc1 hrc2 htb (by omega)
          refine ⟨fr :: rest, ?_, ?_⟩
          · rw [reconLoop_succ_some hlt hg, hrl]
            congr 1
            simp
          · rw [concatTexts_cons, hrcc]
            nth_rewrite 1 [htext]
            exact slice_append_drop s loc (loc + fr.2.length) (by omega)
      | none =>
        have hnk : loc ∉ ks := fun hk => (fragGet_none_not_mem hg) ((hmem loc).mp hk)
        cases hdrop : ks.drop i with
        | nil =>
          have hi' : i = ks.length := by
            have h1 : ks.length ≤ i := List.drop_eq_nil_iff.mp hdrop
            omega
          have hgets : (ks ++ [s.length])[i]? = some s.length := by
            rw [hi']
            simp
          have hrc1 : ∀ k, k ∈ ks → s.length ≤ k → k ∈ ks.drop i := by
            intro k hk hke
            exact absurd (hkub k hk) (by omega)
          have hrc2 : ∀ k, k ∈ ks.drop i → s.length ≤ k := by
            intro k hk
            rw [hdrop] at hk
            cases hk
          obtain ⟨rest, hrl, hrcc⟩ :=
            ih s.length i (acc ++ [(([] : Str), slice s loc s.length)]) hi hrc1 hrc2
              (le_refl _) (by omega)
          refine ⟨(([] : Str), slice s loc s.length) :: rest, ?_, ?_⟩
          · rw [reconLoop_succ_none hlt hg hgets, hrl]
            congr 1
            simp
          · rw [concatTexts_cons, hrcc]
            exact slice_append_drop s loc s.length (by omega)
        | cons h0 tl =>
          have hsortp : List.Sorted (· ≤ ·) (h0 :: tl) := by
            rw [← hdrop]
            exact hsort.sublist (List.drop_sublist _ _)
          have hh0ks : h0 ∈ ks :=
            (List.drop_sublist i ks).subset (by rw [hdrop]; exact List.mem_cons_self _ _)
          have hi2 : i < ks.length := by
            have hlen := congrArg List.length hdrop
            rw [List.length_drop] at hlen
            simp only [List.length_cons] at hlen
            omega
          have hgets : (ks ++ [s.length])[i]? = some h0 := by
            rw [List.getElem?_append, if_pos hi2, ← List.head?_drop, hdrop]
            rfl
          have hloch0 : loc < h0 := by
            have h1 : loc ≤ h0 := hc2 h0 (by rw [hdrop]; exact List.mem_cons_self _ _)
            have h2 : loc ≠ h0 := fun he => hnk (he ▸ hh0ks)
            omega
          have hh0le : h0 ≤ s.length := le_of_lt (hkub h0 hh0ks)
          have hrc1 : ∀ k, k ∈ ks → h0 ≤ k → k ∈ ks.drop i := by
            intro k hk hke
            exact hc1 k hk (by omega)
          have hrc2 : ∀ k, k ∈ ks.drop i → h0 ≤ k := by
            intro k hk
            rw [hdrop] at hk
            rcases List.mem_cons.mp hk with he | htl'
            · omega
            · exact List.rel_of_sorted_cons hsortp k htl'
          obtain ⟨rest, hrl, hrcc⟩ :=
            ih h0 i (acc ++ [(([] : Str), slice s loc h0)]) hi hrc1 hrc2 hh0le (by omega)
          refine ⟨(([] : Str), slice s loc h0) :: rest, ?_, ?_⟩
          · rw [reconLoop_succ_none hlt hg hgets, hrl]
            congr 1
            simp
          · rw [concatTexts_cons, hrcc]
            exact slice_append_drop s loc h0 (by omega)
    · have hloc : loc = s.length := by omega
      refine ⟨[], ?_, ?_⟩
      · rw [reconLoop_done _ _ _ _ hlt]
        simp
      · simp [concatTexts, hloc]

/-- The full `highlight` pipeline for a scan whose recorded captures are
exact, non-empty, in-bounds and pairwise disjoint slices of the input:
it returns a fragment list whose texts concatenate to the input. -/
theorem highlightF_core (g : Grammar) (s : Str) (m : FragMap) (w : List Str)
    (hscan : scanString g s = ScanOut.finished m w)
    (hwf : ∀ p ∈ m, p.2.2 = slice s p.1 (p.1 + p.2.2.length))
    (hpos : ∀ p ∈ m, 0 < p.2.2.length)
    (hbound : ∀ p ∈ m, p.1 + p.2.2.length ≤ s.length)
    (hdisj : ∀ p ∈ m, ∀ q ∈ m, p.1 ≠ q.1 → q.1 < p.1 ∨ p.1 + p.2.2.length ≤ q.1) :
    ∃ frs, highlightF g s = HOut.ok frs ∧ concatTexts frs = s := by
  have hnd : (fragKeys m).Nodup := scanString_nodup hscan
  have hsort : List.Sorted (· ≤ ·) (sortKeys m) := List.sorted_insertionSort _ _
  have hperm : List.Perm (sortKeys m) (fragKeys m) := List.perm_insertionSort _ _
  have hndk : (sortKeys m).Nodup := hperm.nodup_iff.mpr hnd
  have hmemk : ∀ k, k ∈ sortKeys m ↔ k ∈ fragKeys m := fun k => hperm.mem_iff
  obtain ⟨rest, hrl, hrc⟩ :=
    reconLoop_spec s m hwf hpos hbound hdisj (sortKeys m) hsort hndk hmemk
      (s.length + 1) 0 0 [] (Nat.zero_le _) (fun k hk _ => by simpa using hk)
      (fun k _ => Nat.zero_le k) (Nat.zero_le _) (by omega)
  have hre : reconstruct s m = ReconOut.finished rest := by
    unfold reconstruct
    rw [hrl]
    simp
  refine ⟨rest, ?_, by simpa using hrc⟩
  simp [highlightF, hscan, hre]

/-- Python `str.split` based class collection rewritten as a `filterMap`. -/
theorem collectClasses_eq_filterMap (style : Str) :
    collectClasses style = (pySplit style).filterMap
      (fun t => if startsWithCl t (("class:").toList) then some (htmlEscape (t.drop 6))
                else none) := by
  unfold collectClasses
  suffices h : ∀ (pat : Str) (l : List Str) (init : List Str),
      l.foldl (fun cls st =>
          if startsWithCl st pat then cls ++ [htmlEscape (st.drop 6)]
          else cls) init
        = init ++ l.filterMap
            (fun t => if startsWithCl t pat
                      then some (htmlEscape (t.drop 6)) else none) by
    rw [h]
    simp
  intro pat l
  induction l with
  | nil => intro init; simp
  | cons x xs ih =>
    intro init
    by_cases hp : startsWithCl x pat <;> simp [hp, ih]

/-! ### The claims -/

/-- Claim C1 (amended): concatenating the fragment texts of `highlight(T)`
reproduces T exactly, provided the captures recorded during the scan are
non-empty, in-bounds, pairwise disjoint spans (the unrestricted claim is
refuted by `concat_overlap_counterexample`). -/
theorem concat_reproduces_input (g : Grammar) (s : Str) (m : FragMap) (w : List Str)
    (hscan : scanString g s = ScanOut.finished m w)
    (hwf : ∀ p ∈ m, p.2.2 = slice s p.1 (p.1 + p.2.2.length))
    (hpos : ∀ p ∈ m, 0 < p.2.2.length)
    (hbound : ∀ p ∈ m, p.1 + p.2.2.length ≤ s.length)
    (hdisj : ∀ p ∈ m, ∀ q ∈ m, p.1 ≠ q.1 → q.1 < p.1 ∨ p.1 + p.2.2.length ≤ q.1) :
    ∃ frs, highlightF g s = HOut.ok frs ∧ concatTexts frs = s :=
  highlightF_core g s m w hscan hwf hpos hbound hdisj

/-- Witness for C1: a grammar styling `[0, 1)` of `"ab"`. -/
theorem concat_reproduces_input_witness :
    ∃ frs, highlightF gOneCap (("ab").toList) = HOut.ok frs
      ∧ concatTexts frs = (("ab").toList) :=
  concat_reproduces_input gOneCap (("ab").toList)
    [(0, ((("class:int").toList : Str), (("a").toList : Str)))] []
    (by decide) (by decide) (by decide) (by decide) (by decide)

/-- Claim C1 counterexample: with two overlapping, non-nested captures
(spans `[0, 5)` and `[2, 3)` of `"abcdefgh"`, as recorded by a nested styled
rule), the reconstruction emits the characters `[2, 3)` twice and the
concatenation does not reproduce the input. -/
theorem concat_overlap_counterexample :
    highlightF gOverlap (("abcdefgh").toList) = HOut.ok fragsOverlap
    ∧ concatTexts fragsOverlap ≠ (("abcdefgh").toList) := by
  decide

/-- Claim C2 (amended): under the same disjointness conditions as C1, the
fragment sequence is gapless and non-overlapping — consecutive cumulative
offsets agree, the first fragment starts at 0 and the last ends at
`length(T)` (the unrestricted claim is refuted by
`fragments_gapless_counterexample`). -/
theorem fragments_gapless (g : Grammar) (s : Str) (m : FragMap) (w : List Str)
    (hscan : scanString g s = ScanOut.finished m w)
    (hwf : ∀ p ∈ m, p.2.2 = slice s p.1 (p.1 + p.2.2.length))
    (hpos : ∀ p ∈ m, 0 < p.2.2.length)
    (hbound : ∀ p ∈ m, p.1 + p.2.2.length ≤ s.length)
    (hdisj : ∀ p ∈ m, ∀ q ∈ m, p.1 ≠ q.1 → q.1 < p.1 ∨ p.1 + p.2.2.length ≤ q.1) :
    ∃ frs, highlightF g s = HOut.ok frs
      ∧ fragStart frs 0 = 0
      ∧ (∀ i, fragEnd frs i = fragStart frs (i + 1))
      ∧ fragEnd frs (frs.length - 1) = s.length := by
  obtain ⟨frs, hok, hcc⟩ := highlightF_core g s m w hscan hwf hpos hbound hdisj
  refine ⟨frs, hok, rfl, fun i => rfl, ?_⟩
  have hsum : sumLens frs = s.length := by
    rw [← length_concatTexts, hcc]
  cases frs with
  | nil =>
    simp only [sumLens, List.map_nil, List.sum_nil] at hsum
    simp [fragEnd, fragStart, sumLens, ← hsum]
  | cons f0 tl =>
    have hlen : (f0 :: tl).length - 1 + 1 = (f0 :: tl).length := by simp
    unfold fragEnd
    rw [hlen, List.take_length]
    exact hsum

/-- Witness for C2. -/
theorem fragments_gapless_witness :
    ∃ frs, highlightF gOneCap (("ab").toList) = HOut.ok frs
      ∧ fragStart frs 0 = 0
      ∧ (∀ i, fragEnd frs i = fragStart frs (i + 1))
      ∧ fragEnd frs (frs.length - 1) = (("ab").toList).length :=
  fragments_gapless gOneCap (("ab").toList)
    [(0, ((("class:int").toList : Str), (("a").toList : Str)))] []
    (by decide) (by decide) (by decide) (by decide) (by decide)

/-- Claim C2 counterexample: with overlapping captures `[0, 4)` and `[1, 2)`
of `"abcdefgh"`, the last fragment ends at cumulative offset 11, not at
`length(T) = 8`. -/
theorem fragments_gapless_counterexample :
    highlightF gOverlap2 (("abcdefgh").toList) = HOut.ok fragsOverlap2
    ∧ fragEnd fragsOverlap2 (fragsOverlap2.length - 1) ≠ (("abcdefgh").toList).length := by
  decide

/-- Claim C3 (amended): when the pre-parse (skip) step always succeeds and
never moves the cursor backwards, every scan iteration strictly increases
the cursor, and the scan terminates within `length(T) + 1` iterations (the
claim for arbitrary skip faults is refuted by
`scan_stale_skip_counterexample`). -/
theorem scan_terminates_of_skip_total (g : Grammar)
    (hpre : ∀ l, ∃ p, g.preParse l = Except.ok p ∧ l ≤ p) (s : Str) :
    (∀ st st', scanStep g s st = StepRes.next st' → st.loc < st'.loc)
    ∧ ∃ m w, scanString g s = ScanOut.finished m w := by
  refine ⟨scanStep_progress hpre s, ?_⟩
  exact scanLoop_term hpre s (s.length + 1) _ (by simp)

/-- Witness for C3. -/
theorem scan_terminates_witness :
    (∀ st st', scanStep gNoMatch (("ab").toList) st = StepRes.next st' → st.loc < st'.loc)
    ∧ ∃ m w, scanString gNoMatch (("ab").toList) = ScanOut.finished m w :=
  scan_terminates_of_skip_total gNoMatch (fun l => ⟨l, rfl, Nat.le_refl l⟩) (("ab").toList)

/-- Claim C3 counterexample: a skip-rule fault at position 1 (after a
successful first iteration) reuses the stale `preloc = 0`, so the cursor
stays at 1 forever — the iteration does not strictly increase the cursor and
the scan exhausts 200 iterations on a 2-character input. -/
theorem scan_stale_skip_counterexample :
    (scanStep gStaleSkip (("ab").toList)
        { loc := 0, preloc := none, frags := [], warns := [] }
      = StepRes.next { loc := 1, preloc := some 0, frags := [], warns := [] })
    ∧ (scanStep gStaleSkip (("ab").toList)
        { loc := 1, preloc := some 0, frags := [], warns := [] }
      = StepRes.next { loc := 1, preloc := some 0, frags := [], warns := [] })
    ∧ (scanLoop gStaleSkip (("ab").toList) 200
        { loc := 0, preloc := none, frags := [], warns := [] }
      = ScanOut.fuelOut { loc := 1, preloc := some 0, frags := [], warns := [] }) := by
  decide

/-- Claim C4: a non-`ParseBaseException` fault from the match attempt is not
raised to the caller: the iteration continues with the cursor one past the
skip position and exactly one diagnostic naming the fault kind and message
is appended to the warning channel. -/
theorem unexpected_fault_downgraded (g : Grammar) (s : Str) (st : ScanSt) (p : Nat)
    (cs : List Capture) (err : PErr)
    (h1 : g.preParse st.loc = Except.ok p)
    (h2 : g.parse p = Attempt.failure err cs)
    (h3 : err.isParseBase = false) :
    scanStep g s st = StepRes.next
      { loc := p + 1
        preloc := some p
        frags := applyCaptures s st.frags cs
        warns := st.warns ++ [warnMsg err] } := by
  rw [scanStep_eq_failure h1 h2, h3]
  simp

/-- Witness for C4: a `ValueError` at position 0 of `"ab"`. -/
theorem unexpected_fault_downgraded_witness :
    scanStep gFaulty (("ab").toList) { loc := 0, preloc := none, frags := [], warns := [] }
      = StepRes.next
        { loc := 1
          preloc := some 0
          frags := applyCaptures (("ab").toList) []
              [{ start := 0, stop := 1, style := ("class:x").toList }]
          warns := [] ++ [warnMsg valueE] } :=
  unexpected_fault_downgraded gFaulty (("ab").toList)
    { loc := 0, preloc := none, frags := [], warns := [] } 0
    [{ start := 0, stop := 1, style := ("class:x").toList }] valueE rfl rfl rfl

/-- Claim C5 (amended): a skip-rule fault propagates to the caller exactly
when it occurs before any successful pre-parse, i.e. on the first iteration
(`preloc` still `None`); the claim that it propagates at any iteration is
refuted by `skip_fault_later_iteration_counterexample`. -/
theorem skip_fault_first_iteration_raises (g : Grammar) (s : Str) (e : PErr)
    (h : g.preParse 0 = Except.error e) :
    scanString g s = ScanOut.raised e := by
  unfold scanString
  exact scanLoop_succ_raised (Nat.zero_le _) (scanStep_eq_preErr_none h rfl)

/-- Witness for C5. -/
theorem skip_fault_first_iteration_witness :
    scanString gFatalAt0 (("ab").toList) = ScanOut.raised fatalE :=
  skip_fault_first_iteration_raises gFatalAt0 (("ab").toList) fatalE rfl

/-- Claim C5 counterexample: the skip rule faults at position 1, reached at
the second iteration, but the scan does not raise it to the caller: the
handler fires with the stale `preloc` and the loop keeps spinning (120
iterations of fuel are exhausted without either finishing or raising). -/
theorem skip_fault_later_iteration_counterexample :
    (gStaleSkip.preParse 1 = Except.error fatalE)
    ∧ (scanStep gStaleSkip (("ab").toList)
        { loc := 1, preloc := some 0, frags := [], warns := [] }
      = StepRes.next { loc := 1, preloc := some 0, frags := [], warns := [] })
    ∧ (scanLoop gStaleSkip (("ab").toList) 120
        { loc := 0, preloc := none, frags := [], warns := [] }
      ≠ ScanOut.raised fatalE)
    ∧ (scanLoop gStaleSkip (("ab").toList) 120
        { loc := 0, preloc := none, frags := [], warns := [] }
      = ScanOut.fuelOut { loc := 1, preloc := some 0, frags := [], warns := [] }) :=
  ⟨rfl, by decide, by decide, by decide⟩

/-- Claim C6 (code bug): a zero-width styled match records an empty-text
capture, the scan terminates (its `preloc + 1` guard works), but the
reconstruction loop of `_highlight` never advances past the empty capture:
for every amount of fuel it fails to finish, so `highlight` on `"a"` loops
forever. -/
theorem zero_width_capture_hangs :
    (∀ fuel i acc, reconLoop (("a").toList) mZeroWidth [0, 1] fuel 0 i acc
        = ReconOut.fuelOut)
    ∧ scanString gZeroWidth (("a").toList) = ScanOut.finished mZeroWidth []
    ∧ highlightF gZeroWidth (("a").toList) = HOut.reconFuel := by
  refine ⟨?_, by decide, by decide⟩
  intro fuel
  induction fuel with
  | zero =>
    intro i acc
    simp only [reconLoop]
    rw [if_pos (by decide)]
  | succ f ihf =>
    intro i acc
    have hg : fragGet mZeroWidth 0 = some ((("class:z").toList : Str), ([] : Str)) := rfl
    rw [reconLoop_succ_some (by decide) hg]
    exact ihf (i + 1) (acc ++ [((("class:z").toList : Str), ([] : Str))])

/-- Claim C7 (amended): if the scan records no captures, `highlight(T)`
returns exactly one default-style fragment equal to T — for non-empty T (for
the empty string it returns no fragments, refuting the unrestricted claim:
`no_match_empty_input_counterexample`). -/
theorem no_match_single_default_fragment (g : Grammar) (s : Str) (w : List Str)
    (hne : s ≠ []) (hscan : scanString g s = ScanOut.finished [] w) :
    highlightF g s = HOut.ok [(([] : Str), s)] := by
  have hlen : 0 < s.length := List.length_pos.mpr hne
  have hre : reconstruct s [] = ReconOut.finished [(([] : Str), s)] := by
    unfold reconstruct
    have hsk : sortKeys ([] : FragMap) = [] := rfl
    rw [hsk, List.nil_append]
    have hget : fragGet ([] : FragMap) 0 = none := rfl
    have hl : ([s.length] : List Nat)[0]? = some s.length := rfl
    rw [reconLoop_succ_none hlen hget hl]
    rw [reconLoop_done _ _ _ _ (by omega)]
    rw [List.nil_append, slice_zero_len]
  simp [highlightF, hscan, hre]

/-- Witness for C7. -/
theorem no_match_single_default_fragment_witness :
    highlightF gNoMatch (("ab").toList) = HOut.ok [(([] : Str), (("ab").toList))] :=
  no_match_single_default_fragment gNoMatch (("ab").toList) [] (by decide) (by decide)

/-- Claim C7 counterexample: for the empty input and a grammar that matches
nothing, `highlight('')` returns zero fragments, not one empty default-style
fragment. -/
theorem no_match_empty_input_counterexample :
    scanString gNoMatch ([] : Str) = ScanOut.finished [] []
    ∧ highlightF gNoMatch ([] : Str) = HOut.ok []
    ∧ HOut.ok ([] : List Frag) ≠ HOut.ok [(([] : Str), ([] : Str))] := by
  decide

/-- Claim C8 (amended): in free-form mode `highlight_html` splits the style
string on whitespace, keeps exactly the `class:<name>` tokens with `<name>`
taken verbatim (HTML-escaped), and wraps the escaped text in a
`<span class="...">` exactly when the class list is non-empty and its FIRST
entry is non-empty; otherwise the escaped text is emitted unwrapped (the
"at least one non-empty class" version is refuted by
`html_first_class_empty_counterexample`). -/
theorem html_span_condition (style tx : Str) :
    collectClasses style = (pySplit style).filterMap
        (fun t => if startsWithCl t (("class:").toList) then some (htmlEscape (t.drop 6))
                  else none)
    ∧ fragmentHtml (style, tx) =
        (if (collectClasses style).headD [] ≠ [] then
          ("<span class=\"").toList ++ joinSpace (collectClasses style) ++ ("\">").toList
            ++ htmlEscape tx ++ ("</span>").toList
         else htmlEscape tx) := by
  refine ⟨collectClasses_eq_filterMap style, ?_⟩
  unfold fragmentHtml
  cases hcs : collectClasses style with
  | nil => simp [hcs]
  | cons c ctl =>
    by_cases hc : c = []
    · subst hc
      simp [hcs]
    · simp [hcs, hc]

/-- Claim C8 counterexample: the style `"class: class:foo"` resolves the
class list `["", "foo"]` — a non-empty class name is present — yet the
fragment is emitted unwrapped because the FIRST resolved class is empty. -/
theorem html_first_class_empty_counterexample :
    fragmentHtml ((("class: class:foo").toList), (("a").toList)) = ("a").toList
    ∧ (("foo").toList) ∈ collectClasses (("class: class:foo").toList)
    ∧ (("foo").toList) ≠ ([] : Str) := by
  decide

/-- Claim C9: the capture wrapper is observationally transparent: the
wrapped rule accepts exactly when the wrapped expression accepts, propagates
the same failure, and on success consumes exactly the same input length
(when actions run it also restores the original token list). -/
theorem styler_transparent (expr : Rule) (s : Str) (l : Nat) (dA : Bool) :
    (ruleOk (stylerRule expr s l dA) = ruleOk (expr s l dA))
    ∧ (∀ e tk, expr s l dA = Except.ok (e, tk) →
        stylerRule expr s l dA
          = Except.ok (e, if dA then tk else tk ++ [Tok.loc e]))
    ∧ (∀ err, expr s l dA = Except.error err →
        stylerRule expr s l dA = Except.error err) := by
  refine ⟨?_, ?_, ?_⟩
  · cases h : expr s l dA with
    | ok pr =>
      obtain ⟨e, tk⟩ := pr
      cases dA <;> simp [stylerRule, locatorParse, ruleOk, h]
    | error err => simp [stylerRule, locatorParse, ruleOk, h]
  · intro e tk h
    cases dA <;> simp [stylerRule, locatorParse, h]
  · intro err h
    simp [stylerRule, locatorParse, h]

/-- Witness for C9. -/
theorem styler_transparent_witness :
    stylerRule ruleW (("ab").toList) 0 true
      = Except.ok (2, if true then [Tok.str (("ab").toList)]
                      else [Tok.str (("ab").toList)] ++ [Tok.loc 2]) :=
  (styler_transparent ruleW (("ab").toList) 0 true).2.1 2 [Tok.str (("ab").toList)] rfl

/-- Claim C10: for the empty input string, `highlight('')` returns an empty
fragment sequence (whenever the scan completes). -/
theorem empty_input_no_fragments (g : Grammar) (m : FragMap) (w : List Str)
    (hscan : scanString g [] = ScanOut.finished m w) :
    highlightF g [] = HOut.ok [] := by
  have hre : reconstruct ([] : Str) m = ReconOut.finished [] := by
    unfold reconstruct
    exact reconLoop_done _ _ _ _ (by simp)
  simp [highlightF, hscan, hre]

/-- Witness for C10. -/
theorem empty_input_no_fragments_witness :
    highlightF gNoMatch ([] : Str) = HOut.ok [] :=
  empty_input_no_fragments gNoMatch [] [] (by decide)

end PPH
